import Mathlib

/-!
Verification of the page-resolution and build-output-path logic of
`vite-plugin-html-template-mpa` (`src/index.ts`).

Strings are embedded as `List Char`. JavaScript string operations that the
source uses (`String.prototype.split` with a string separator, global regex
replacement for the concrete regexes appearing in the source, `path.dirname`,
`path.resolve`, truthiness of strings, array indexing which may yield
`undefined`) are reproduced as executable Lean functions.
-/

namespace ViteMpa

/-- JS array index that may be out of range: `arr[arr.length - 2]`
(`none` models `undefined`). -/
def secondToLast (l : List α) : Option α :=
  (l.reverse.drop 1).head?

/-- Coercing a possibly-`undefined` string into a string the way JS string
concatenation does: `undefined` becomes the literal text `"undefined"`. -/
def jsConcatArg : Option (List Char) → List Char
  | some s => s
  | none => "undefined".data

/-- Worker for `splitOnL`: structural recursion on a fuel argument so that the
function reduces in the kernel; the fuel is always at least the length of the
list, and every step consumes at least one character, so the fuel never runs
out on the entry point below. -/
def splitOnFuel (sep : List Char) : Nat → List Char → List (List Char)
  | _, [] => [[]]
  | 0, l => [l]
  | fuel + 1, c :: rest =>
    if sep ≠ [] ∧ sep.isPrefixOf (c :: rest) then
      [] :: splitOnFuel sep fuel (List.drop sep.length (c :: rest))
    else
      match splitOnFuel sep fuel rest with
      | [] => [[c]]
      | hd :: tl => (c :: hd) :: tl

/-- JS `String.prototype.split` with a non-empty string separator:
leftmost, non-overlapping occurrences of `sep` divide `s`. -/
def splitOnL (sep l : List Char) : List (List Char) :=
  splitOnFuel sep l.length l

/-- JS `String.prototype.includes` for a plain (non-regex) pattern. -/
def includesL (pat : List Char) : List Char → Bool
  | [] => pat.isEmpty
  | c :: rest => pat.isPrefixOf (c :: rest) || includesL pat rest

/-- JS truthiness of an optional string: `undefined` and `""` are falsy. -/
def truthyStr : Option (List Char) → Bool
  | some (_ :: _) => true
  | _ => false

/-- JS `a || b` for optional strings (`a` kept when truthy). -/
def jsOrStr (a b : Option (List Char)) : Option (List Char) :=
  if truthyStr a then a else b

/-- JS object-spread precedence for one field: `{...a, ...b}` keeps `b`'s
field when `b` has it, else `a`'s (`none` models an absent field). -/
def jsOr : Option α → Option α → Option α
  | some v, _ => some v
  | none, a => a

/-! ## BundlePostProcessor: relocation of emitted HTML assets
(`createMinifyHtmlPlugin.generateBundle`, src/index.ts lines 380-419). -/

/-- `_pageName = htmlChunk.fileName.replace(/\\/g, '/').split('/')` followed by
`htmlName = (buildPrefixName || '') + _pageName[_pageName.length - 2]`
(src/index.ts lines 384-386). -/
def finalBaseName (buildPrefixName fileName : List Char) : List Char :=
  let parts := splitOnL ['/'] (fileName.map fun c => if c = '\\' then '/' else c)
  buildPrefixName ++ jsConcatArg (secondToLast parts)

/-- The relocation decision of `generateBundle` (src/index.ts lines 410-418):
in MPA mode `moveHtmlTop` sends the file to `<htmlName>.html`, else
`moveHtmlDirTop` sends it to `<htmlName>/index.html`, else the file name is
unchanged; in SPA mode the file name is always `index.html`. -/
def relocatedFileName (isMpaFlag moveHtmlTop moveHtmlDirTop : Bool)
    (buildPrefixName fileName : List Char) : List Char :=
  let htmlName := finalBaseName buildPrefixName fileName
  if isMpaFlag then
    if moveHtmlTop then htmlName ++ ".html".data
    else if moveHtmlDirTop then htmlName ++ "/index.html".data
    else fileName
  else "index.html".data

/-! ## PageDescriptorResolver (`getPageData`, src/index.ts lines 31-52). -/

/-- The per-page option fields that `getPageData` merges (the six common
fields of `pick(options, [...])`; field values are abstracted to strings,
`none` models an absent field). -/
structure PageOptions where
  template : Option (List Char)
  title : Option (List Char)
  entry : Option (List Char)
  filename : Option (List Char)
  urlParams : Option (List Char)
  inject : Option (List Char)
deriving DecidableEq, Repr

/-- The empty per-page override (`{}`). -/
def PageOptions.empty : PageOptions := ⟨none, none, none, none, none, none⟩

/-- The plugin options that `getPageData` reads: the six common fields plus
the `pages` map (`none` models an absent map; the map itself is the list of
own properties of the JS object, in insertion order). -/
structure MpaOptions where
  template : Option (List Char)
  title : Option (List Char)
  entry : Option (List Char)
  filename : Option (List Char)
  urlParams : Option (List Char)
  inject : Option (List Char)
  pages : Option (List (List Char × PageOptions))
deriving DecidableEq, Repr

/-- Modelled from the spec: `pick` from `src/utils.ts` (not under `src/`),
"the common fields (template, title, entry, filename, urlParams, inject)
taken from GlobalOptions" (spec section 4.1). -/
def pick (o : MpaOptions) : PageOptions :=
  ⟨o.template, o.title, o.entry, o.filename, o.urlParams, o.inject⟩

/-- Modelled from the spec: `isPlainObject`-based `isEmptyObject`
(src/index.ts lines 28-29, `isPlainObject` lives in `src/utils.ts`, not under
`src/`): a pages map with zero own properties (spec section 4.1). -/
def isEmptyObject (pages : List (List Char × PageOptions)) : Bool :=
  pages.isEmpty

/-- JS property lookup `pages[pageName]` on an object modelled as its own
property list. -/
def lookupPage (pages : List (List Char × PageOptions)) (n : List Char) :
    Option PageOptions :=
  (pages.find? fun p => p.1 = n).map (·.2)

/-- The shallow merge `{ ...commonOptions, ...override }`: each field of the
override wins when present. -/
def mergePage (common override : PageOptions) : PageOptions :=
  ⟨jsOr override.template common.template,
   jsOr override.title common.title,
   jsOr override.entry common.entry,
   jsOr override.filename common.filename,
   jsOr override.urlParams common.urlParams,
   jsOr override.inject common.inject⟩

/-- `getPageData` (src/index.ts lines 31-52): in SPA mode (no pages map or an
empty one) the common fields are returned; otherwise the common fields are
shallow-merged with `pages[pageName]` (absent entry behaves as `{}`). -/
def getPageData (options : MpaOptions) (pageName : List Char) : PageOptions :=
  let commonOptions := pick options
  match options.pages with
  | none => commonOptions
  | some l =>
    if isEmptyObject l then commonOptions
    else mergePage commonOptions ((lookupPage l pageName).getD PageOptions.empty)

/-! ## OutputNamingPlanner (`configResolved`, src/index.ts lines 84-165). -/

/-- The three rollup output-naming pattern fields the planner manipulates
(`none` models an absent field of the output object). -/
structure OutputOpts where
  entryFileNames : Option (List Char)
  chunkFileNames : Option (List Char)
  assetFileNames : Option (List Char)
deriving DecidableEq, Repr

/-- Reading a field through a possibly-`undefined` object reference for a JS
spread (`{...a}` contributes nothing when `a` is `undefined`). -/
def fieldOf (o : Option OutputOpts) (f : OutputOpts → Option (List Char)) :
    Option (List Char) :=
  match o with
  | some x => f x
  | none => none

/-- JS object spread `{...a, ...b}` restricted to the three pattern fields:
a field of `b` wins whenever `b` has it. -/
def spread2 (a b : Option OutputOpts) : OutputOpts :=
  ⟨jsOr (fieldOf b OutputOpts.entryFileNames) (fieldOf a OutputOpts.entryFileNames),
   jsOr (fieldOf b OutputOpts.chunkFileNames) (fieldOf a OutputOpts.chunkFileNames),
   jsOr (fieldOf b OutputOpts.assetFileNames) (fieldOf a OutputOpts.assetFileNames)⟩

/-- The `options.buildCfg` block (src/index.ts lines 62-72). -/
structure BuildCfg where
  moveHtmlTop : Bool
  moveHtmlDirTop : Bool
  buildPrefixName : List Char
  htmlHash : Bool
  buildAssetDirName : List Char
  buildChunkDirName : List Char
  buildEntryDirName : List Char
  htmlPrefixSearchValue : List Char
  htmlPrefixReplaceValue : List Char
deriving DecidableEq, Repr

instance {ε α : Type} [DecidableEq ε] [DecidableEq α] : DecidableEq (Except ε α)
  | Except.error a, Except.error b =>
    if h : a = b then isTrue (by rw [h]) else isFalse fun hc => h (by injection hc)
  | Except.ok a, Except.ok b =>
    if h : a = b then isTrue (by rw [h]) else isFalse fun hc => h (by injection hc)
  | Except.error _, Except.ok _ => isFalse fun hc => Except.noConfusion hc
  | Except.ok _, Except.error _ => isFalse fun hc => Except.noConfusion hc

/-- JS `resolvedConfig.build.assetsDir || 'assets'` (src/index.ts line 92). -/
def assetDirOf (assetsDirCfg : List Char) : List Char :=
  if assetsDirCfg = [] then "assets".data else assetsDirCfg

/-- The fixed naming triple installed by the `htmlHash` step
(src/index.ts lines 108-112). -/
def hashTriple (assetDir : List Char) : OutputOpts :=
  ⟨some (assetDir ++ "/[name].js".data),
   some (assetDir ++ "/[name].js".data),
   some (assetDir ++ "/[name].[ext]".data)⟩

/-- The output-pattern planning part of `configResolved` (src/index.ts
lines 92-153; the entry-input prefixing of lines 97-105 touches only
`rollupOptions.input` and is independent of the output patterns).

`_output` captures the object initially referenced by
`rollupOptions.output` (line 95); the `htmlHash` step replaces
`rollupOptions.output` by a fresh merged object (lines 107-124) while the
per-category steps (lines 126-148) read and mutate the captured `_output`,
which is a `TypeError` (`Except.error`) when it is `undefined`; the final
merge (lines 150-153) spreads the mutated `_output` on top of the current
`rollupOptions.output`. -/
def planOutput (cfg : BuildCfg) (assetsDirCfg : List Char)
    (output0 : Option OutputOpts) : Except Unit OutputOpts :=
  let assetDir := assetDirOf assetsDirCfg
  let output1 : Option OutputOpts :=
    if cfg.htmlHash then some (spread2 output0 (some (hashTriple assetDir)))
    else output0
  if cfg.buildAssetDirName = [] ∧ cfg.buildChunkDirName = [] ∧
      cfg.buildEntryDirName = [] then
    Except.ok (spread2 output1 output0)
  else
    match output0 with
    | none => Except.error ()
    | some o =>
      let o1 := if cfg.buildAssetDirName ≠ [] then
          { o with assetFileNames := some (
              if cfg.htmlHash ||
                  !includesL "[hash]".data (jsConcatArg o.assetFileNames) then
                assetDir ++ "/".data ++ cfg.buildAssetDirName ++ "/[name].[ext]".data
              else
                assetDir ++ "/".data ++ cfg.buildAssetDirName ++
                  "/[name]-[hash].[ext]".data) }
        else o
      let o2 := if cfg.buildChunkDirName ≠ [] then
          { o1 with chunkFileNames := some (
              if cfg.htmlHash ||
                  !includesL "[hash]".data (jsConcatArg o1.chunkFileNames) then
                assetDir ++ "/".data ++ cfg.buildChunkDirName ++ "/[name].js".data
              else
                assetDir ++ "/".data ++ cfg.buildChunkDirName ++
                  "/[name]-[hash].js".data) }
        else o1
      let o3 := if cfg.buildEntryDirName ≠ [] then
          { o2 with entryFileNames := some (
              if cfg.htmlHash ||
                  !includesL "[hash]".data (jsConcatArg o2.entryFileNames) then
                assetDir ++ "/".data ++ cfg.buildEntryDirName ++ "/[name].js".data
              else
                assetDir ++ "/".data ++ cfg.buildEntryDirName ++
                  "/[name]-[hash].js".data) }
        else o2
      Except.ok (spread2 output1 (some o3))

/-! ## PageNameResolver, dev mode (`configureServer`, src/index.ts
lines 173-182). -/

/-- Whether a JS regex `.` matches this character (anything but a line
terminator). -/
def isDotChar (c : Char) : Bool :=
  !(c = '\n' || c = '\r' || c = '\u2028' || c = '\u2029')

/-- The portion of `l` strictly before its last `'/'` (`none` when `l` has no
`'/'`): what a greedy `(.*)` captures when followed by a literal `/`. -/
def takeToLastSlash : List Char → Option (List Char)
  | [] => none
  | c :: rest =>
    match takeToLastSlash rest with
    | some p => some (c :: p)
    | none => if c = '/' then some [] else none

/-- JS `url.match(new RegExp(pat + "/(.*)/"))?.[1]` for a literal text `pat`
(the plugin instantiates it with `pat = pagesDir`, which contains no regex
metacharacters in its default form): the engine tries each start position from
the left; at a position, the literal `pat ++ "/"` must match, and then the
greedy `(.*)` captures up to the last `'/'` reachable without crossing a line
terminator; if no such `'/'` exists the whole attempt fails and the engine
moves one position right. -/
def jsMatchCapture (pat : List Char) : List Char → Option (List Char)
  | [] => none
  | c :: rest =>
    if pat.isPrefixOf (c :: rest) then
      match takeToLastSlash ((List.drop pat.length (c :: rest)).takeWhile isDotChar) with
      | some cap => some cap
      | none => jsMatchCapture pat rest
    else jsMatchCapture pat rest

/-- The dev middleware's page-name computation (src/index.ts lines 173-182):
`url = options.pagesDir + req.originalUrl`; the name is `"index"` when `url`
is exactly `"/"`, otherwise the first capture of
`url.match(new RegExp(pagesDir + "/(.*)/"))`, with a failed match or an empty
capture falling back to `"index"`. -/
def devPageName (pagesDir originalUrl : List Char) : List Char :=
  let url := pagesDir ++ originalUrl
  if url = ['/'] then "index".data
  else
    match jsMatchCapture (pagesDir ++ ['/']) url with
    | some cap => if cap = [] then "index".data else cap
    | none => "index".data

/-! ## PageNameResolver, build mode (`resolveId` line 248 and `load`
lines 285-288). -/

/-- Node `path.posix.dirname`: scanning from the end, trailing slashes are
skipped, and the path is cut just before the next `'/'` found after a
non-slash character (never at index 0); with no such slash the result is
`"/"` for an absolute path and `"."` otherwise, and a slash found at index 1
of an absolute path yields `"//"`. -/
def dirnameL (p : List Char) : List Char :=
  if p = [] then ['.']
  else
    let hasRoot := p.head? = some '/'
    let r1 := p.reverse.dropWhile (fun c => c = '/')
    let r2 := r1.dropWhile (fun c => c ≠ '/')
    if r2.length ≤ 1 then (if hasRoot then ['/'] else ['.'])
    else if hasRoot ∧ r2.length = 2 then ['/', '/']
    else p.take (r2.length - 1)

/-- Modelled from the spec: `last` from `src/utils.ts`, which is not under
`src/` — the final element of an array, `undefined` (`none`) when empty
("the page name is the name of the identifier's parent directory segment",
spec section 4.2, together with the worked examples in the source comments at
src/index.ts lines 238-247). -/
def lastElem (l : List α) : Option α := l.getLast?

/-- The `resolveId` page name (src/index.ts line 248):
`last(path.dirname(id).split('/')) || ''`, for an already-normalized `id`. -/
def resolveIdPageName (id : List Char) : List Char :=
  (lastElem (splitOnL ['/'] (dirnameL id))).getD []

/-- The `load` page name (src/index.ts lines 285-288):
`last(path.dirname(id).split(options.pagesDir)).replace(/\//g, '')`, for an
already-normalized `id` (`split` never yields an empty array, so `last` is
always a string there). -/
def loadPageName (pagesDir id : List Char) : List Char :=
  ((lastElem (splitOnL pagesDir (dirnameL id))).getD []).filter fun c => c ≠ '/'

/-! ## BundlePostProcessor hash-tagging (`generateBundle`, src/index.ts
lines 391-395, with the build-wide token of lines 23-26). -/

/-- Global replacement for the regex `/\.js/g` with replacement
`".js?" + token`: every occurrence of the literal text `.js` (leftmost,
non-overlapping) gets `?token` spliced in after it. -/
def jsReplaceJs (token : List Char) : List Char → List Char
  | '.' :: 'j' :: 's' :: rest => '.' :: 'j' :: 's' :: '?' :: (token ++ jsReplaceJs token rest)
  | c :: rest => c :: jsReplaceJs token rest
  | [] => []

/-- Global replacement for the regex `/.css/g` (unescaped dot!) with
replacement `".css?" + token`: any character matched by `.` that is followed
by the literal text `css` is rewritten, together with that `css`, into
`.css?token`. -/
def jsReplaceCss (token : List Char) : List Char → List Char
  | c :: 'c' :: 's' :: 's' :: rest =>
    if isDotChar c then
      '.' :: 'c' :: 's' :: 's' :: '?' :: (token ++ jsReplaceCss token rest)
    else c :: jsReplaceCss token ('c' :: 's' :: 's' :: rest)
  | c :: rest => c :: jsReplaceCss token rest
  | [] => []

/-- The `htmlHash` text transformation of `generateBundle` (src/index.ts
lines 391-395): the `.js` substitution followed by the `.css` substitution,
both with the one build-wide token. -/
def hashTagSource (token s : List Char) : List Char :=
  jsReplaceCss token (jsReplaceJs token s)

/-- The style-reference rewrite as the claim words it (named for comparison
with `jsReplaceCss`): append `?token` after every occurrence of the literal
text `.css`, changing nothing else. -/
def cssAppendClaim (token : List Char) : List Char → List Char
  | '.' :: 'c' :: 's' :: 's' :: rest =>
    '.' :: 'c' :: 's' :: 's' :: '?' :: (token ++ cssAppendClaim token rest)
  | c :: rest => c :: cssAppendClaim token rest
  | [] => []

/-- The whole hash-tagging as the claim words it: append `?token` after every
`.js` occurrence and after every `.css` occurrence. -/
def claimHashTag (token s : List Char) : List Char :=
  cssAppendClaim token (jsReplaceJs token s)

/-- Decides whether the `/.css/g` scan only ever matches `css` preceded by a
literal `'.'` in this text (mirrors the scan of `jsReplaceCss`). -/
def cssSafe : List Char → Bool
  | c :: 'c' :: 's' :: 's' :: rest =>
    if isDotChar c then decide (c = '.') && cssSafe rest
    else cssSafe ('c' :: 's' :: 's' :: rest)
  | _ :: rest => cssSafe rest
  | [] => true

/-! ## TemplatePathResolver (`configureServer` lines 186-195 and `load`
lines 293-301). -/

/-- One normalization step of Node `path.posix`: empty and `.` segments
vanish, `..` pops the previous segment (or nothing at the root), any other
segment is kept. -/
def normalizeSegs : List (List Char) → List (List Char) → List (List Char)
  | acc, [] => acc.reverse
  | acc, seg :: rest =>
    if seg = [] ∨ seg = ['.'] then normalizeSegs acc rest
    else if seg = ['.', '.'] then normalizeSegs (acc.drop 1) rest
    else normalizeSegs (seg :: acc) rest

def joinSegs : List (List Char) → List Char
  | [] => []
  | [s] => s
  | s :: rest => s ++ '/' :: joinSegs rest

/-- Node `path.resolve(process.cwd(), p)` on POSIX paths, `cwd` standing for
the absolute `process.cwd()` (the `resolve` helper of src/index.ts line 19):
an absolute `p` stands alone, otherwise `p` is joined to `cwd`; the joined
path is normalized segment-wise. -/
def resolveP (cwd p : List Char) : List Char :=
  let joined := if p.head? = some '/' then p else cwd ++ '/' :: p
  '/' :: joinSegs (normalizeSegs [] (splitOnL ['/'] joined))

/-- The dev-serve template choice (src/index.ts lines 189-195):
`onlyUseEjsAndMinify` reads the host-resolved input for the page (possibly
`undefined`); otherwise a truthy template override wins, then the MPA default
`public/index.html`, then `index.html`. -/
def devTemplatePath (onlyUseEjsAndMinify : Bool) (inputForPage : Option (List Char))
    (templateOption : Option (List Char)) (isMpaFlag : Bool) (cwd : List Char) :
    Option (List Char) :=
  if onlyUseEjsAndMinify then inputForPage
  else some (
    if truthyStr templateOption then resolveP cwd (templateOption.getD [])
    else if isMpaFlag then resolveP cwd "public/index.html".data
    else resolveP cwd "index.html".data)

/-- The build-mode (`load`) template choice (src/index.ts lines 293-301): a
truthy template override wins, then `public/index.html` if it exists on disk
(`publicIndexExists` standing for `fs.existsSync`), then `index.html`. -/
def buildTemplatePath (templateOption : Option (List Char))
    (publicIndexExists : Bool) (cwd : List Char) : List Char :=
  if truthyStr templateOption then resolveP cwd (templateOption.getD [])
  else if publicIndexExists then resolveP cwd "public/index.html".data
  else resolveP cwd "index.html".data

/-! ## Basic lemmas about the embedded string operations. -/

@[simp] theorem jsOr_some (v : α) (a : Option α) : jsOr (some v) a = some v := rfl

@[simp] theorem jsOr_none (a : Option α) : jsOr none a = a := rfl

@[simp] theorem jsOr_self (a : Option α) : jsOr a a = a := by cases a <;> rfl

/-- Full characterization of the planner on a pre-existing output object:
each category's effective pattern is its per-category override when that
directory name is configured; otherwise, with `htmlHash` set, the pre-hash
field when present and the triple's pattern when absent; otherwise the
pre-hash field unchanged. -/
theorem planOutput_some (cfg : BuildCfg) (aCfg : List Char) (o : OutputOpts) :
    planOutput cfg aCfg (some o)
      = Except.ok
          ⟨(if cfg.buildEntryDirName ≠ [] then
              some (if cfg.htmlHash ||
                  !includesL "[hash]".data (jsConcatArg o.entryFileNames) then
                assetDirOf aCfg ++ "/".data ++ cfg.buildEntryDirName ++ "/[name].js".data
              else
                assetDirOf aCfg ++ "/".data ++ cfg.buildEntryDirName ++
                  "/[name]-[hash].js".data)
            else if cfg.htmlHash then
              jsOr o.entryFileNames (some (assetDirOf aCfg ++ "/[name].js".data))
            else o.entryFileNames),
           (if cfg.buildChunkDirName ≠ [] then
              some (if cfg.htmlHash ||
                  !includesL "[hash]".data (jsConcatArg o.chunkFileNames) then
                assetDirOf aCfg ++ "/".data ++ cfg.buildChunkDirName ++ "/[name].js".data
              else
                assetDirOf aCfg ++ "/".data ++ cfg.buildChunkDirName ++
                  "/[name]-[hash].js".data)
            else if cfg.htmlHash then
              jsOr o.chunkFileNames (some (assetDirOf aCfg ++ "/[name].js".data))
            else o.chunkFileNames),
           (if cfg.buildAssetDirName ≠ [] then
              some (if cfg.htmlHash ||
                  !includesL "[hash]".data (jsConcatArg o.assetFileNames) then
                assetDirOf aCfg ++ "/".data ++ cfg.buildAssetDirName ++ "/[name].[ext]".data
              else
                assetDirOf aCfg ++ "/".data ++ cfg.buildAssetDirName ++
                  "/[name]-[hash].[ext]".data)
            else if cfg.htmlHash then
              jsOr o.assetFileNames (some (assetDirOf aCfg ++ "/[name].[ext]".data))
            else o.assetFileNames)⟩ := by
  by_cases hH : cfg.htmlHash <;>
    by_cases hA : cfg.buildAssetDirName = [] <;>
    by_cases hC : cfg.buildChunkDirName = [] <;>
    by_cases hE : cfg.buildEntryDirName = [] <;>
    simp [planOutput, spread2, fieldOf, hashTriple, hH, hA, hC, hE]

theorem splitOnFuel_ne_nil (sep : List Char) :
    ∀ (fuel : Nat) (l : List Char), splitOnFuel sep fuel l ≠ [] := by
  intro fuel
  induction fuel with
  | zero => intro l; cases l <;> simp [splitOnFuel]
  | succ fuel ih =>
    intro l
    cases l with
    | nil => simp [splitOnFuel]
    | cons c rest =>
      simp only [splitOnFuel]
      split
      · simp
      · split <;> simp

theorem splitOnFuel_of_includes_false (sep : List Char) :
    ∀ (fuel : Nat) (l : List Char), includesL sep l = false →
      splitOnFuel sep fuel l = [l] := by
  intro fuel
  induction fuel with
  | zero => intro l _; cases l <;> simp [splitOnFuel]
  | succ fuel ih =>
    intro l h
    cases l with
    | nil => simp [splitOnFuel]
    | cons c rest =>
      simp only [includesL, Bool.or_eq_false_iff] at h
      simp only [splitOnFuel]
      rw [if_neg (by simp [h.1]), ih rest h.2]

theorem splitOnL_of_includes_false (sep l : List Char)
    (h : includesL sep l = false) : splitOnL sep l = [l] :=
  splitOnFuel_of_includes_false sep l.length l h

theorem includesL_single_of_not_mem {c : Char} {l : List Char} (h : c ∉ l) :
    includesL [c] l = false := by
  induction l with
  | nil => simp [includesL]
  | cons d rest ih =>
    simp only [List.mem_cons, not_or] at h
    simp only [includesL, Bool.or_eq_false_iff]
    refine ⟨?_, ih h.2⟩
    simp [List.isPrefixOf, h.1]

theorem map_backslash_eq_self {l : List Char} (h : '\\' ∉ l) :
    l.map (fun c => if c = '\\' then '/' else c) = l := by
  induction l with
  | nil => rfl
  | cons c rest ih =>
    simp only [List.mem_cons, not_or] at h
    have hc : ¬ c = '\\' := fun hc => h.1 hc.symm
    simp [List.map_cons, if_neg hc, ih h.2]

theorem takeToLastSlash_of_no_slash {l : List Char} (h : '/' ∉ l) :
    takeToLastSlash l = none := by
  induction l with
  | nil => rfl
  | cons c rest ih =>
    simp only [List.mem_cons, not_or] at h
    have hc : ¬ c = '/' := fun hc => h.1 hc.symm
    simp [takeToLastSlash, ih h.2, hc]

theorem takeToLastSlash_append {pre post : List Char} (h1 : '/' ∉ pre)
    (h2 : '/' ∉ post) : takeToLastSlash (pre ++ '/' :: post) = some pre := by
  induction pre with
  | nil => simp [takeToLastSlash, takeToLastSlash_of_no_slash h2]
  | cons c rest ih =>
    simp only [List.mem_cons, not_or] at h1
    simp [takeToLastSlash, ih h1.2]

theorem takeWhile_all_append {P : Char → Bool} {pre : List Char}
    (h : ∀ c ∈ pre, P c = true) (post : List Char) :
    List.takeWhile P (pre ++ post) = pre ++ List.takeWhile P post := by
  induction pre with
  | nil => rfl
  | cons c rest ih =>
    simp only [List.cons_append, List.takeWhile_cons, h c (by simp)]
    rw [ih fun d hd => h d (by simp [hd])]
    simp

theorem mem_of_takeWhile {P : Char → Bool} {a : Char} {l : List Char}
    (h : a ∈ List.takeWhile P l) : a ∈ l := by
  induction l with
  | nil => simp at h
  | cons c rest ih =>
    rw [List.takeWhile_cons] at h
    by_cases hp : P c = true
    · rw [if_pos hp] at h
      rcases List.mem_cons.mp h with h | h
      · simp [h]
      · simp [ih h]
    · rw [if_neg hp] at h
      simp at h

theorem jsMatchCapture_at_start (pat tail : List Char) (hp : pat ≠ [])
    (cap : List Char)
    (hc : takeToLastSlash (tail.takeWhile isDotChar) = some cap) :
    jsMatchCapture pat (pat ++ tail) = some cap := by
  cases pat with
  | nil => exact absurd rfl hp
  | cons p ps =>
    show jsMatchCapture (p :: ps) (p :: (ps ++ tail)) = some cap
    rw [jsMatchCapture]
    have hpre : (p :: ps).isPrefixOf (p :: (ps ++ tail)) = true := by
      rw [List.isPrefixOf_iff_prefix]
      exact ⟨tail, by simp⟩
    rw [if_pos hpre]
    have hdrop : List.drop (p :: ps).length (p :: (ps ++ tail)) = tail := by
      have h2 := List.drop_left (p :: ps) tail
      simp at h2
      simp [h2]
    rw [hdrop, hc]

theorem splitOnFuel_irrel (sep : List Char) :
    ∀ fuel1 fuel2 l, l.length ≤ fuel1 → l.length ≤ fuel2 →
      splitOnFuel sep fuel1 l = splitOnFuel sep fuel2 l := by
  intro fuel1
  induction fuel1 with
  | zero =>
    intro fuel2 l h1 _
    have : l = [] := List.length_eq_zero.mp (Nat.le_zero.mp h1)
    subst this
    cases fuel2 <;> rfl
  | succ fuel ih =>
    intro fuel2 l h1 h2
    cases l with
    | nil => cases fuel2 <;> rfl
    | cons c rest =>
      cases fuel2 with
      | zero => simp at h2
      | succ fuel2 =>
        rw [splitOnFuel, splitOnFuel]
        by_cases hp : sep ≠ [] ∧ sep.isPrefixOf (c :: rest)
        · rw [if_pos hp, if_pos hp]
          have hlen : (List.drop sep.length (c :: rest)).length ≤ fuel := by
            have hd := List.length_drop sep.length (c :: rest)
            have hsl : 0 < sep.length := List.length_pos.mpr hp.1
            simp only [hd, List.length_cons]
            simp only [List.length_cons] at h1
            omega
          have hlen2 : (List.drop sep.length (c :: rest)).length ≤ fuel2 := by
            have hd := List.length_drop sep.length (c :: rest)
            have hsl : 0 < sep.length := List.length_pos.mpr hp.1
            simp only [hd, List.length_cons]
            simp only [List.length_cons] at h2
            omega
          rw [ih _ _ hlen hlen2]
        · rw [if_neg hp, if_neg hp]
          have hr1 : rest.length ≤ fuel := by
            simp only [List.length_cons] at h1; omega
          have hr2 : rest.length ≤ fuel2 := by
            simp only [List.length_cons] at h2; omega
          rw [ih _ _ hr1 hr2]

theorem splitOnFuel_eq_splitOnL (sep : List Char) (fuel : Nat) (l : List Char)
    (h : l.length ≤ fuel) : splitOnFuel sep fuel l = splitOnL sep l :=
  splitOnFuel_irrel sep fuel l.length l h (Nat.le_refl _)

theorem splitOnL_sep_append (sep rest : List Char) (hs : sep ≠ []) :
    splitOnL sep (sep ++ rest) = [] :: splitOnL sep rest := by
  cases sep with
  | nil => exact absurd rfl hs
  | cons s ss =>
    show splitOnFuel (s :: ss) ((s :: ss) ++ rest).length ((s :: ss) ++ rest) = _
    have hl : ((s :: ss) ++ rest).length = ((ss ++ rest).length) + 1 := by
      simp [List.length_append, List.length_cons]
    rw [hl]
    show splitOnFuel (s :: ss) ((ss ++ rest).length + 1) (s :: (ss ++ rest)) = _
    rw [splitOnFuel]
    have hp : (s :: ss) ≠ [] ∧ (s :: ss).isPrefixOf (s :: (ss ++ rest)) := by
      refine ⟨by simp, ?_⟩
      rw [List.isPrefixOf_iff_prefix]
      exact ⟨rest, by simp⟩
    rw [if_pos hp]
    have hdrop : List.drop (s :: ss).length (s :: (ss ++ rest)) = rest := by
      have h2 := List.drop_left (s :: ss) rest
      simp only [List.cons_append] at h2
      exact h2
    rw [hdrop]
    rw [splitOnFuel_eq_splitOnL _ _ _ (by simp [List.length_append])]

theorem splitOnL_cons_no_match (sep : List Char) (d : Char) (t : List Char)
    (h : ¬(sep ≠ [] ∧ sep.isPrefixOf (d :: t))) :
    splitOnL sep (d :: t)
      = match splitOnL sep t with
        | [] => [[d]]
        | hd :: tl => (d :: hd) :: tl := by
  show splitOnFuel sep (d :: t).length (d :: t) = _
  rw [List.length_cons, splitOnFuel, if_neg h]
  rfl

theorem splitOnL_ne_nil (sep l : List Char) : splitOnL sep l ≠ [] :=
  splitOnFuel_ne_nil sep l.length l

theorem two_le_splitOnL_single (c : Char) (s : List Char) (h : c ∈ s) :
    2 ≤ (splitOnL [c] s).length := by
  induction s with
  | nil => simp at h
  | cons d rest ih =>
    by_cases hd : d = c
    · subst hd
      have hsa := splitOnL_sep_append [d] rest (by simp)
      simp only [List.singleton_append] at hsa
      rw [hsa, List.length_cons]
      have hnn := splitOnL_ne_nil [d] rest
      have hpos := List.length_pos.mpr hnn
      omega
    · have hmem : c ∈ rest := by
        rcases List.mem_cons.mp h with h | h
        · exact absurd h.symm hd
        · exact h
      rw [splitOnL_cons_no_match [c] d rest (by
        intro hcon
        rw [List.isPrefixOf_iff_prefix] at hcon
        rcases hcon.2 with ⟨w, hw⟩
        simp at hw
        exact hd hw.1.symm)]
      rcases hsp : splitOnL [c] rest with _ | ⟨hd1, tl1⟩
      · exact absurd hsp (splitOnL_ne_nil [c] rest)
      · have hih := ih hmem
        rw [hsp] at hih
        simp only [List.length_cons] at hih ⊢
        omega

theorem getLast_splitOnL_single (c : Char) (name : List Char) (hc : c ∉ name) :
    ∀ x : List Char, (splitOnL [c] (x ++ c :: name)).getLast? = some name := by
  intro x
  induction x with
  | nil =>
    simp only [List.nil_append]
    have h1 : splitOnL [c] (c :: name) = [] :: splitOnL [c] name := by
      have hsa := splitOnL_sep_append [c] name (by simp)
      simpa using hsa
    rw [h1, splitOnL_of_includes_false [c] name (includesL_single_of_not_mem hc)]
    rfl
  | cons d x' ih =>
    by_cases hd : d = c
    · subst hd
      have h1 : splitOnL [d] (d :: (x' ++ d :: name))
          = [] :: splitOnL [d] (x' ++ d :: name) := by
        have hsa := splitOnL_sep_append [d] (x' ++ d :: name) (by simp)
        simpa using hsa
      rw [List.cons_append, h1]
      rcases hsp : splitOnL [d] (x' ++ d :: name) with _ | ⟨hd1, tl1⟩
      · exact absurd hsp (splitOnL_ne_nil _ _)
      · rw [hsp] at ih
        rw [List.getLast?_cons_cons]
        exact ih
    · rw [List.cons_append, splitOnL_cons_no_match [c] d (x' ++ c :: name) (by
        intro hcon
        rw [List.isPrefixOf_iff_prefix] at hcon
        rcases hcon.2 with ⟨w, hw⟩
        simp at hw
        exact hd hw.1.symm)]
      rcases hsp : splitOnL [c] (x' ++ c :: name) with _ | ⟨hd1, tl1⟩
      · exact absurd hsp (splitOnL_ne_nil _ _)
      · have hlen : 2 ≤ (splitOnL [c] (x' ++ c :: name)).length :=
          two_le_splitOnL_single c _ (by simp)
        rw [hsp] at hlen ih
        simp only [List.length_cons] at hlen
        rcases tl1 with _ | ⟨e, tl2⟩
        · simp at hlen
        · rw [List.getLast?_cons_cons]
          rw [List.getLast?_cons_cons] at ih
          exact ih

theorem dropWhile_all_append {P : Char → Bool} {u : List Char} (w : List Char)
    (h : ∀ c ∈ u, P c = true) :
    List.dropWhile P (u ++ w) = List.dropWhile P w := by
  induction u with
  | nil => rfl
  | cons c rest ih =>
    rw [List.cons_append, List.dropWhile_cons, if_pos (h c (by simp))]
    exact ih fun d hd => h d (by simp [hd])

theorem dirnameL_append (a f : List Char) (hf : f ≠ []) (hfs : '/' ∉ f)
    (ha : 2 ≤ a.length) : dirnameL (a ++ '/' :: f) = a := by
  have hne : a ++ '/' :: f ≠ [] := by simp
  have hr1 : (a ++ '/' :: f).reverse.dropWhile (fun c => c = '/')
      = f.reverse ++ '/' :: a.reverse := by
    rw [show (a ++ '/' :: f).reverse = f.reverse ++ '/' :: a.reverse by simp]
    cases hfr : f.reverse with
    | nil => exact absurd (by simpa using congrArg List.reverse hfr) hf
    | cons c t =>
      have hcf : c ∈ f := by
        have hcr : c ∈ f.reverse := by rw [hfr]; simp
        simpa using hcr
      rw [List.cons_append, List.dropWhile_cons,
        if_neg (by simp; intro hcc; exact hfs (hcc ▸ hcf))]
  have hr2 : List.dropWhile (fun c => c ≠ '/') (f.reverse ++ '/' :: a.reverse)
      = '/' :: a.reverse := by
    rw [dropWhile_all_append _ (fun c hc => by
      simp
      intro hcc
      exact hfs (hcc ▸ (List.mem_reverse.mp hc)))]
    rw [List.dropWhile_cons]
    simp
  unfold dirnameL
  rw [if_neg hne]
  simp only [hr1, hr2, List.length_cons, List.length_reverse]
  rw [if_neg (by omega)]
  rw [if_neg (by rintro ⟨_, h22⟩; omega)]
  simp only [Nat.add_sub_cancel]
  rw [List.take_left' rfl]

/-! ## Claim theorems for the dev-mode page-name resolution. -/

/-- Counterexample to C1: for the request path `/src/views/foo/index.html`
with the default `pagesDir = "src/views"`, the middleware prepends `pagesDir`
to the URL and the greedy regex then captures `src/views/foo` — not `foo` as
the claim states. -/
theorem claim_C1_counterexample :
    devPageName "src/views".data "/src/views/foo/index.html".data
        = "src/views/foo".data
  ∧ "src/views/foo".data ≠ "foo".data :=
  ⟨by decide, by decide⟩

/-- C1 (amended): because the middleware prepends `pagesDir` to the original
URL before matching `pagesDir + "/(.*)/"`, the pattern already matches at
position 0, so for request paths of the shape `/foo/bar.html` — one `foo`
segment directly under the site root, not repeating `pagesDir` — the greedy
capture is exactly `foo`, for every `pagesDir`; a request path that itself
starts with `/<pagesDir>/` instead yields `<pagesDir>/foo`. -/
theorem claim_C1_dev_page_name (pagesDir foo bar : List Char) (h0 : foo ≠ [])
    (h1 : '/' ∉ foo) (h2 : ∀ c ∈ foo, isDotChar c = true) (h3 : '/' ∉ bar) :
    devPageName pagesDir ('/' :: (foo ++ '/' :: bar)) = foo := by
  unfold devPageName
  have hurl : pagesDir ++ '/' :: (foo ++ '/' :: bar)
      = (pagesDir ++ ['/']) ++ (foo ++ '/' :: bar) := by simp
  have hne : pagesDir ++ '/' :: (foo ++ '/' :: bar) ≠ ['/'] := by
    intro h
    have hlen := congrArg List.length h
    simp [List.length_append] at hlen
    omega
  rw [if_neg hne, hurl]
  have hcap : takeToLastSlash ((foo ++ '/' :: bar).takeWhile isDotChar)
      = some foo := by
    rw [takeWhile_all_append h2]
    rw [List.takeWhile_cons]
    have hds : isDotChar '/' = true := by decide
    rw [hds]
    simp only [if_true]
    exact takeToLastSlash_append h1 fun hmem => h3 (mem_of_takeWhile hmem)
  rw [jsMatchCapture_at_start _ _ (by simp) _ hcap]
  simp [h0]

/-- Closed witness for C1 at the request path `/foo/index.html` with the
default pages directory. -/
theorem claim_C1_dev_page_name_witness :
    devPageName "src/views".data "/foo/index.html".data = "foo".data := by
  exact claim_C1_dev_page_name "src/views".data "foo".data "index.html".data
    (by decide) (by decide) (by decide) (by decide)

/-! ## Claim theorems for the build-mode page-name derivation. -/

/-- Counterexample to C3: for the normalized identifier
`src/views/a/b/index.html` (nested two directories below the default
`pagesDir`), the `resolveId` step derives the parent-directory name `b`, but
the `load` step — which splits `dirname(id)` on `pagesDir` and strips every
slash — derives `ab`, which is not the parent directory segment. -/
theorem claim_C3_counterexample :
    resolveIdPageName "src/views/a/b/index.html".data = "b".data
  ∧ loadPageName "src/views".data "src/views/a/b/index.html".data = "ab".data
  ∧ "ab".data ≠ "b".data :=
  ⟨by decide, by decide, by decide⟩

/-- C3 (amended): the `resolveId` step always derives the name of the
identifier's parent directory segment; the `load` step agrees with it exactly
for identifiers lying one directory below `pagesDir` (the shape the virtual
ids produced by `resolveId` have), where both yield that directory's name —
for deeper nesting `load` instead concatenates all segments below `pagesDir`
with the slashes removed. -/
theorem claim_C3_build_page_name (pagesDir a name file : List Char)
    (hname : name ≠ []) (hns : '/' ∉ name) (hfile : file ≠ []) (hfs : '/' ∉ file)
    (hpd : pagesDir ≠ []) (hninc : includesL pagesDir ('/' :: name) = false) :
    resolveIdPageName (a ++ '/' :: (name ++ '/' :: file)) = name
  ∧ loadPageName pagesDir (pagesDir ++ '/' :: (name ++ '/' :: file)) = name := by
  constructor
  · unfold resolveIdPageName lastElem
    rw [show a ++ '/' :: (name ++ '/' :: file)
        = (a ++ '/' :: name) ++ '/' :: file by simp]
    rw [dirnameL_append _ _ hfile hfs (by
      cases name with
      | nil => exact absurd rfl hname
      | cons c t => simp [List.length_append]; omega)]
    rw [getLast_splitOnL_single '/' name hns a]
    rfl
  · unfold loadPageName lastElem
    rw [show pagesDir ++ '/' :: (name ++ '/' :: file)
        = (pagesDir ++ '/' :: name) ++ '/' :: file by simp]
    rw [dirnameL_append _ _ hfile hfs (by
      cases pagesDir with
      | nil => exact absurd rfl hpd
      | cons c t => simp [List.length_append]; omega)]
    rw [splitOnL_sep_append pagesDir ('/' :: name) hpd]
    rw [splitOnL_of_includes_false pagesDir ('/' :: name) hninc]
    rw [List.getLast?_cons_cons, List.getLast?_singleton]
    simp only [Option.getD_some, List.filter_cons]
    rw [if_neg (by simp)]
    rw [List.filter_eq_self.mpr (fun c hc => by
      simp
      intro hcc
      exact hns (hcc ▸ hc))]

/-- Closed witness for C3 at a concrete one-level identifier, where both
steps agree on the page name `foo`. -/
theorem claim_C3_build_page_name_witness :
    resolveIdPageName ("/proj".data ++ '/' :: ("foo".data ++ '/' :: "index.html".data))
        = "foo".data
  ∧ loadPageName "src/views".data
        ("src/views".data ++ '/' :: ("foo".data ++ '/' :: "index.html".data))
        = "foo".data :=
  claim_C3_build_page_name "src/views".data "/proj".data "foo".data
    "index.html".data (by decide) (by decide) (by decide) (by decide)
    (by decide) (by decide)

/-! ## Claim theorems for the bundle post-processor's relocation. -/

/-- C5: in MPA mode, `moveHtmlTop` relocates every emitted HTML asset to
`<finalBaseName>.html` at the output root (winning over `moveHtmlDirTop`);
otherwise `moveHtmlDirTop` relocates it to `<finalBaseName>/index.html`;
otherwise its path is unchanged.  In SPA mode the final path is always
exactly `index.html`, regardless of both flags and of the original path. -/
theorem claim_C5_relocation (moveHtmlTop moveHtmlDirTop : Bool)
    (pre fileName : List Char) :
    relocatedFileName true true moveHtmlDirTop pre fileName
        = finalBaseName pre fileName ++ ".html".data
  ∧ relocatedFileName true false true pre fileName
        = finalBaseName pre fileName ++ "/index.html".data
  ∧ relocatedFileName true false false pre fileName = fileName
  ∧ relocatedFileName false moveHtmlTop moveHtmlDirTop pre fileName
        = "index.html".data := by
  refine ⟨rfl, rfl, rfl, rfl⟩

/-- C9: in MPA mode, an emitted HTML asset whose path has no directory
separator has no second-to-last path segment, so the derived base name is the
prefix followed by the literal text `undefined`, and the move flags relocate
the file to `<prefix>undefined.html` resp. `<prefix>undefined/index.html`. -/
theorem claim_C9_top_level_asset (moveHtmlDirTop : Bool) (pre fileName : List Char)
    (h1 : '/' ∉ fileName) (h2 : '\\' ∉ fileName) :
    finalBaseName pre fileName = pre ++ "undefined".data
  ∧ relocatedFileName true true moveHtmlDirTop pre fileName
        = pre ++ "undefined".data ++ ".html".data
  ∧ relocatedFileName true false true pre fileName
        = pre ++ "undefined".data ++ "/index.html".data := by
  have hbase : finalBaseName pre fileName = pre ++ "undefined".data := by
    unfold finalBaseName
    rw [map_backslash_eq_self h2,
      splitOnL_of_includes_false _ _ (includesL_single_of_not_mem h1)]
    rfl
  refine ⟨hbase, ?_, ?_⟩
  · show finalBaseName pre fileName ++ ".html".data = _
    rw [hbase]
  · show finalBaseName pre fileName ++ "/index.html".data = _
    rw [hbase]

/-- Closed witness for C9 at a concrete top-level asset path. -/
theorem claim_C9_top_level_asset_witness :
    finalBaseName "p-".data "index.html".data = "p-".data ++ "undefined".data
  ∧ relocatedFileName true true false "p-".data "index.html".data
        = "p-".data ++ "undefined".data ++ ".html".data
  ∧ relocatedFileName true false true "p-".data "index.html".data
        = "p-".data ++ "undefined".data ++ "/index.html".data :=
  claim_C9_top_level_asset false "p-".data "index.html".data
    (by decide) (by decide)

theorem cssSafe_replace_eq (t : List Char) :
    ∀ u : List Char, cssSafe u = true → jsReplaceCss t u = cssAppendClaim t u := by
  intro u
  induction u using cssSafe.induct with
  | case1 c rest hdot ih =>
    intro h
    rw [cssSafe.eq_1, if_pos hdot, Bool.and_eq_true] at h
    have hc : c = '.' := of_decide_eq_true h.1
    subst hc
    rw [jsReplaceCss.eq_1, if_pos hdot, cssAppendClaim.eq_1, ih h.2]
  | case2 c rest hdot ih =>
    intro h
    rw [cssSafe.eq_1, if_neg hdot] at h
    have hc : ¬ c = '.' :=
      fun hcc => hdot (hcc ▸ (by decide : isDotChar '.' = true))
    rw [jsReplaceCss.eq_1, if_neg hdot]
    rw [cssAppendClaim.eq_2 t c _ fun r1 hcd _ => hc hcd]
    rw [ih h]
  | case3 c rest hne ih =>
    intro h
    rw [cssSafe.eq_2 c rest hne] at h
    rw [jsReplaceCss.eq_2 t c rest hne]
    rw [cssAppendClaim.eq_2 t c rest fun r1 _ hr => hne r1 hr]
    rw [ih h]
  | case4 =>
    intro h
    rfl

/-! ## Claim theorems for the hash-tagging text substitution. -/

/-- Counterexample to C6: the text `abcss` contains no `.js` and no `.css`
occurrence, so by the claim nothing would change; but the unescaped dot of
`/.css/g` matches the `b`, and the substitution rewrites the text to
`a.css?t`, overwriting the `b` with a dot. -/
theorem claim_C6_counterexample :
    hashTagSource "t".data "abcss".data = "a.css?t".data
  ∧ claimHashTag "t".data "abcss".data = "abcss".data
  ∧ hashTagSource "t".data "abcss".data ≠ claimHashTag "t".data "abcss".data :=
  ⟨by decide, by decide, by decide⟩

/-- C6 (amended): when `htmlHash` is set, the step appends `?token` after
every `.js` occurrence (one shared token per build); the style substitution,
whose regex has an unescaped dot, rewrites every character-followed-by-`css`
match into `.css?token`, which coincides with appending `?token` after every
`.css` occurrence — leaving everything else unchanged — exactly on texts
where every such match is already preceded by a literal dot (`cssSafe`); on
other texts it overwrites the preceding character with a dot. -/
theorem claim_C6_hash_tagging (t s : List Char)
    (h : cssSafe (jsReplaceJs t s) = true) :
    hashTagSource t s = claimHashTag t s := by
  unfold hashTagSource claimHashTag
  exact cssSafe_replace_eq t _ h

/-- Closed witness for C6 on a well-formed HTML-like text. -/
theorem claim_C6_hash_tagging_witness :
    hashTagSource "t".data "a.js and b.css".data
      = claimHashTag "t".data "a.js and b.css".data :=
  claim_C6_hash_tagging "t".data "a.js and b.css".data (by decide)

/-! ## Claim theorems for the output-naming planner. -/

/-- Counterexample to C2: with `htmlHash` set and a pre-existing output
configuration that already defines `entryFileNames` (here `"e.js"`), the
planner's result keeps that pre-existing entry pattern — the effective
patterns are not the fixed hash triple, because the final merge spreads the
pre-hash `_output` snapshot on top of it. -/
theorem claim_C2_counterexample :
    planOutput ⟨true, false, [], true, [], [], [], [], []⟩ "assets".data
        (some ⟨some "e.js".data, none, none⟩)
      = Except.ok ⟨some "e.js".data, some "assets/[name].js".data,
          some "assets/[name].[ext]".data⟩
  ∧ (⟨some "e.js".data, some "assets/[name].js".data,
        some "assets/[name].[ext]".data⟩ : OutputOpts).entryFileNames
      ≠ (hashTriple (assetDirOf "assets".data)).entryFileNames := by
  exact ⟨by decide, by decide⟩

/-- C2 (amended): with `htmlHash` set, each category's effective pattern is
its per-category override when that directory name is configured; otherwise
it is the pre-existing pattern whenever the pre-existing output object
defined that field (the final merge re-spreads the pre-hash snapshot on top
of the hash triple), and only for fields absent from the pre-existing output
does the fixed triple pattern survive.  When no output object pre-exists (and
no per-category name is configured), the result is exactly the triple. -/
theorem claim_C2_hash_override (mt md : Bool) (pn sv rv bA bC bE aCfg : List Char)
    (o : OutputOpts) :
    planOutput ⟨mt, md, pn, true, bA, bC, bE, sv, rv⟩ aCfg (some o)
      = Except.ok
          ⟨(if bE ≠ [] then
              some (assetDirOf aCfg ++ "/".data ++ bE ++ "/[name].js".data)
            else jsOr o.entryFileNames
              (some (assetDirOf aCfg ++ "/[name].js".data))),
           (if bC ≠ [] then
              some (assetDirOf aCfg ++ "/".data ++ bC ++ "/[name].js".data)
            else jsOr o.chunkFileNames
              (some (assetDirOf aCfg ++ "/[name].js".data))),
           (if bA ≠ [] then
              some (assetDirOf aCfg ++ "/".data ++ bA ++ "/[name].[ext]".data)
            else jsOr o.assetFileNames
              (some (assetDirOf aCfg ++ "/[name].[ext]".data)))⟩
  ∧ planOutput ⟨mt, md, pn, true, [], [], [], sv, rv⟩ aCfg none
      = Except.ok (hashTriple (assetDirOf aCfg)) := by
  constructor
  · rw [planOutput_some]
    simp
  · simp [planOutput, spread2, fieldOf, hashTriple]

/-- C4: for each of the three categories independently, when its directory
name is configured the planner's effective pattern for that category is the
unhashed `dir` sub-pattern if `htmlHash` is set or the category's current
(pre-planning) pattern does not contain `[hash]`, and the hashed `[name]-[hash]`
sub-pattern otherwise. -/
theorem claim_C4_per_category (cfg : BuildCfg) (aCfg : List Char)
    (o r : OutputOpts) (hr : planOutput cfg aCfg (some o) = Except.ok r) :
    (cfg.buildAssetDirName ≠ [] →
      r.assetFileNames = some (
        if cfg.htmlHash ||
            !includesL "[hash]".data (jsConcatArg o.assetFileNames) then
          assetDirOf aCfg ++ "/".data ++ cfg.buildAssetDirName ++ "/[name].[ext]".data
        else
          assetDirOf aCfg ++ "/".data ++ cfg.buildAssetDirName ++
            "/[name]-[hash].[ext]".data))
  ∧ (cfg.buildChunkDirName ≠ [] →
      r.chunkFileNames = some (
        if cfg.htmlHash ||
            !includesL "[hash]".data (jsConcatArg o.chunkFileNames) then
          assetDirOf aCfg ++ "/".data ++ cfg.buildChunkDirName ++ "/[name].js".data
        else
          assetDirOf aCfg ++ "/".data ++ cfg.buildChunkDirName ++
            "/[name]-[hash].js".data))
  ∧ (cfg.buildEntryDirName ≠ [] →
      r.entryFileNames = some (
        if cfg.htmlHash ||
            !includesL "[hash]".data (jsConcatArg o.entryFileNames) then
          assetDirOf aCfg ++ "/".data ++ cfg.buildEntryDirName ++ "/[name].js".data
        else
          assetDirOf aCfg ++ "/".data ++ cfg.buildEntryDirName ++
            "/[name]-[hash].js".data)) := by
  rw [planOutput_some] at hr
  injection hr with hrr
  subst hrr
  exact ⟨fun hA => by simp [hA], fun hC => by simp [hC], fun hE => by simp [hE]⟩

/-- Closed witness for C4 at the spec's own example: directory name `x`,
`htmlHash` off, and a current asset pattern without `[hash]` gives the
unhashed form, while a current pattern containing `[hash]` gives the hashed
form. -/
theorem claim_C4_per_category_witness :
    planOutput ⟨true, false, [], false, "x".data, [], [], [], []⟩ "assets".data
        (some ⟨none, none, some "assets/[name].[ext]".data⟩)
      = Except.ok ⟨none, none, some "assets/x/[name].[ext]".data⟩
  ∧ (⟨none, none, some "assets/x/[name].[ext]".data⟩ : OutputOpts).assetFileNames
      = some "assets/x/[name].[ext]".data
  ∧ planOutput ⟨true, false, [], false, "x".data, [], [], [], []⟩ "assets".data
        (some ⟨none, none, some "assets/[name]-[hash].[ext]".data⟩)
      = Except.ok ⟨none, none, some "assets/x/[name]-[hash].[ext]".data⟩
  ∧ (⟨none, none, some "assets/x/[name]-[hash].[ext]".data⟩ : OutputOpts).assetFileNames
      = some "assets/x/[name]-[hash].[ext]".data :=
  ⟨by decide,
   (claim_C4_per_category ⟨true, false, [], false, "x".data, [], [], [], []⟩
      "assets".data ⟨none, none, some "assets/[name].[ext]".data⟩
      ⟨none, none, some "assets/x/[name].[ext]".data⟩ (by decide)).1 (by decide),
   by decide,
   (claim_C4_per_category ⟨true, false, [], false, "x".data, [], [], [], []⟩
      "assets".data ⟨none, none, some "assets/[name]-[hash].[ext]".data⟩
      ⟨none, none, some "assets/x/[name]-[hash].[ext]".data⟩ (by decide)).1 (by decide)⟩

/-- C10: if any per-category directory name is configured while no output
object pre-exists, the planner faults (models the `TypeError` from reading a
property of the `undefined` `_output`) — also when `htmlHash` is set; with a
pre-existing output object the planner always succeeds. -/
theorem claim_C10_undefined_output (cfg : BuildCfg) (aCfg : List Char) :
    (¬(cfg.buildAssetDirName = [] ∧ cfg.buildChunkDirName = [] ∧
        cfg.buildEntryDirName = []) →
      planOutput cfg aCfg none = Except.error ())
  ∧ (∀ o : OutputOpts, ∃ r, planOutput cfg aCfg (some o) = Except.ok r) := by
  constructor
  · intro h
    simp [planOutput, h]
  · intro o
    exact ⟨_, planOutput_some cfg aCfg o⟩

/-- Closed witness for C10: a configured asset directory name and an
`undefined` output object fault even though `htmlHash` is set. -/
theorem claim_C10_undefined_output_witness :
    planOutput ⟨true, false, [], true, "x".data, [], [], [], []⟩ "assets".data none
      = Except.error () :=
  (claim_C10_undefined_output ⟨true, false, [], true, "x".data, [], [], [], []⟩
    "assets".data).1 (by decide)

/-! ## Claim theorem for `getPageData`. -/

/-- C7: `getPageData` is total; with no pages map, an empty pages map, or a
page name that is not a key of the map, it returns exactly the six common
fields picked from the global options (independent of the page name); for a
present key it returns the field-by-field shallow merge, the per-page
override taking precedence. -/
theorem claim_C7_getPageData (o : MpaOptions) (p : List Char) :
    (o.pages = none → getPageData o p = pick o)
  ∧ (∀ l, o.pages = some l → isEmptyObject l = true → getPageData o p = pick o)
  ∧ (∀ l, o.pages = some l → lookupPage l p = none → getPageData o p = pick o)
  ∧ (∀ l v, o.pages = some l → isEmptyObject l = false → lookupPage l p = some v →
      getPageData o p = mergePage (pick o) v) := by
  refine ⟨?_, ?_, ?_, ?_⟩
  · intro h; simp [getPageData, h]
  · intro l hl he; simp [getPageData, hl, he]
  · intro l hl hn
    by_cases he : isEmptyObject l
    · simp [getPageData, hl, he]
    · simp only [getPageData, hl, if_neg he, hn, Option.getD_none]
      show mergePage (pick o) PageOptions.empty = pick o
      rfl
  · intro l v hl he hv
    simp [getPageData, hl, he, hv]

/-- C8: with only-post-process off and a (truthy) template override in the
effective page descriptor, both the dev-serve and the build-mode template
resolution yield exactly the override resolved against the project root,
whatever the mode flag and whatever exists on disk — the MPA default
`public/index.html` and the bare default `index.html` are never consulted. -/
theorem claim_C8_template_priority (t cwd : List Char) (ht : t ≠ [])
    (isMpaFlag publicIndexExists : Bool) (inputForPage : Option (List Char)) :
    devTemplatePath false inputForPage (some t) isMpaFlag cwd
        = some (resolveP cwd t)
  ∧ buildTemplatePath (some t) publicIndexExists cwd = resolveP cwd t := by
  have htr : truthyStr (some t) = true := by
    cases t with
    | nil => exact absurd rfl ht
    | cons c r => rfl
  constructor <;> simp [devTemplatePath, buildTemplatePath, htr]

/-- Closed witness for C8 at a concrete override. -/
theorem claim_C8_template_priority_witness :
    devTemplatePath false none (some "tmpl/page.html".data) true "/proj".data
        = some (resolveP "/proj".data "tmpl/page.html".data)
  ∧ buildTemplatePath (some "tmpl/page.html".data) true "/proj".data
        = resolveP "/proj".data "tmpl/page.html".data :=
  claim_C8_template_priority "tmpl/page.html".data "/proj".data (by decide)
    true true none

/-- Closed witness for C7: an options object with one page entry, probed at a
missing name and at the present name. -/
theorem claim_C7_getPageData_witness :
    (getPageData
        ⟨some "t".data, some "T".data, none, none, none, none,
          some [("foo".data, ⟨none, some "Foo".data, none, none, none, none⟩)]⟩
        "bar".data
      = pick ⟨some "t".data, some "T".data, none, none, none, none,
          some [("foo".data, ⟨none, some "Foo".data, none, none, none, none⟩)]⟩)
  ∧ (getPageData
        ⟨some "t".data, some "T".data, none, none, none, none,
          some [("foo".data, ⟨none, some "Foo".data, none, none, none, none⟩)]⟩
        "foo".data
      = mergePage
          (pick ⟨some "t".data, some "T".data, none, none, none, none,
            some [("foo".data, ⟨none, some "Foo".data, none, none, none, none⟩)]⟩)
          ⟨none, some "Foo".data, none, none, none, none⟩) :=
  ⟨(claim_C7_getPageData _ "bar".data).2.2.1 _ rfl (by decide),
   (claim_C7_getPageData _ "foo".data).2.2.2 _ _ rfl (by decide) (by decide)⟩

end ViteMpa
